import Mathlib

set_option maxHeartbeats 1000000
set_option maxRecDepth 20000

/-!
Shallow embedding of the IAR map-file parser of `map_analyser.py`.

A report file is modelled after reading and text-decoding as its list of
lines, each line a list of characters without terminators (the source reads
the whole file, splits it into lines, and its per-line `rstrip` of carriage
returns and newlines is then the identity).  The filepath-derived
`project_name` and the file I/O itself are outside the line-sequence model.
Python `ValueError` escaping `parse_map_file` (from `int()` on a non-numeric
token) is modelled by `Option`: `none` is an aborted parse.
-/

namespace MapAn

abbrev Line := List Char

/-- The apostrophe character (ASCII 39), the IAR digit-group separator. -/
def apoC : Char := Char.ofNat 39

/-- Whitespace as recognized by Python `str.strip` and regex `\s` (ASCII). -/
def pySpace (c : Char) : Bool :=
  c == ' ' || c == '\t' || c == '\n' || c == '\r' || c == '\x0b' || c == '\x0c'

/-- Python `str.strip`: drop leading and trailing whitespace. -/
def stripWS (l : List Char) : List Char :=
  ((l.dropWhile pySpace).reverse.dropWhile pySpace).reverse

/-- Does `s` start with `pat` (Python `str.startswith`). -/
def startsWithL : List Char → List Char → Bool
  | [], _ => true
  | _ :: _, [] => false
  | p :: ps, c :: cs => p == c && startsWithL ps cs

/-- Python substring containment (`pat in s`). -/
def containsSub (pat : List Char) : List Char → Bool
  | [] => pat.isEmpty
  | c :: cs => startsWithL pat (c :: cs) || containsSub pat cs

/-- Python `str.find` helper: index of the first occurrence of `pat`. -/
def pyFindAux (pat : List Char) : List Char → Option Nat
  | [] => if pat.isEmpty then some 0 else none
  | c :: cs => if startsWithL pat (c :: cs) then some 0 else (pyFindAux pat cs).map (· + 1)

/-- Python `str.find`: first index of `pat` in `l`, or `-1`. -/
def pyFind (pat l : List Char) : Int :=
  match pyFindAux pat l with
  | some n => (n : Int)
  | none => -1

/-- Does `l` end with `suf` (Python `str.endswith`). -/
def endsWithL (suf l : List Char) : Bool := startsWithL suf.reverse l.reverse

/-- Python `s.ljust n` padding with spaces. -/
def ljustSp (n : Nat) (l : List Char) : List Char := l ++ List.replicate (n - l.length) ' '

/-- Python slice `s[a:b]` for nonnegative bounds. -/
def sliceL (a b : Nat) (l : List Char) : List Char := (l.drop a).take (b - a)

/-- Maximal runs of characters satisfying `cls`; `acc` is the current run,
reversed.  This is `re.findall` of a character class. -/
def runsGo (cls : Char → Bool) : List Char → List Char → List (List Char)
  | acc, [] => if acc.isEmpty then [] else [acc.reverse]
  | acc, c :: cs =>
    if cls c then runsGo cls (c :: acc) cs
    else if acc.isEmpty then runsGo cls [] cs
    else acc.reverse :: runsGo cls [] cs

/-- Characters of the digit-group token class: digits and apostrophes. -/
def daChar (c : Char) : Bool := c.isDigit || c == apoC

/-- `re.findall` of the digit-or-apostrophe class over a line. -/
def runsDA (l : List Char) : List (List Char) := runsGo daChar [] l

/-- Python `str.replace` for the two-character pattern `.o` with empty
replacement: left-to-right, non-overlapping removal of every occurrence. -/
def replaceDotO : List Char → List Char
  | '.' :: 'o' :: rest => replaceDotO rest
  | c :: rest => c :: replaceDotO rest
  | [] => []

/-- Value of a decimal digit string. -/
def digitsVal (l : List Char) : Nat := l.foldl (fun a c => 10 * a + (c.toNat - 48)) 0

/-- Tail of a Python decimal int literal after its first digit: digits with
single underscores allowed only between digits. -/
def uTail : List Char → Bool
  | [] => true
  | c :: cs =>
    if c == '_' then
      match cs with
      | [] => false
      | d :: ds => d.isDigit && uTail ds
    else c.isDigit && uTail cs

/-- Acceptance of Python `int()` digit bodies (ASCII). -/
def pyDigitsOK (l : List Char) : Bool :=
  match l with
  | [] => false
  | c :: cs => c.isDigit && uTail cs

/-- Decimal body decoding for Python `int()`. -/
def pyDigits (l : List Char) : Option Nat :=
  if pyDigitsOK l then some (digitsVal (l.filter Char.isDigit)) else none

/-- Python `int(s)` on ASCII text: strip whitespace, optional sign, then
digits with optional single underscores between digits; anything else raises
`ValueError`, modelled as `none`. -/
def pyInt (s : List Char) : Option Int :=
  if (stripWS s).take 1 = ['+'] then (pyDigits ((stripWS s).drop 1)).map (fun n => (n : Int))
  else if (stripWS s).take 1 = ['-'] then (pyDigits ((stripWS s).drop 1)).map (fun n => -(n : Int))
  else (pyDigits (stripWS s)).map (fun n => (n : Int))

/-- `parse_iar_number` of the source: an empty or whitespace-only token
decodes to 0; otherwise strip, remove apostrophes, remove commas (single
character `str.replace` is a filter), and convert with `int()`. -/
def parse_iar_number (s : List Char) : Option Int :=
  if stripWS s = [] then some 0
  else pyInt (((stripWS s).filter (fun c => !(c == apoC))).filter (fun c => !(c == ',')))

/-- Hex digit value. -/
def hexDigitVal (c : Char) : Nat :=
  if c.isDigit then c.toNat - 48
  else if 'a' ≤ c && c ≤ 'f' then c.toNat - 87
  else c.toNat - 55

def zeroXL : List Char := ['0', 'x']

/-- Python `int(t, 16)` restricted to the regex-validated tokens it receives
at its call sites: an optional `0x` behind hex digits. -/
def hexVal (t : List Char) : Nat :=
  (if startsWithL zeroXL t then t.drop 2 else t).foldl (fun a c => 16 * a + hexDigitVal c) 0

structure Module where
  name : List Char
  group : List Char
  ro_code : Int
  ro_data : Int
  rw_data : Int
  total : Int
deriving DecidableEq

structure Entry where
  name : List Char
  address : List Char
  size : Nat
  type : List Char
  scope : List Char
  object : List Char
deriving DecidableEq

structure GrandTotal where
  ro_code : Int
  ro_data : Int
  rw_data : Int
deriving DecidableEq

structure Summary where
  readonly_code : Int
  readonly_data : Int
  readwrite_data : Int
deriving DecidableEq

structure ReportModel where
  toolchain_info : List Char
  modules : List Module
  entries : List Entry
  grand_total : GrandTotal
  summary : Summary
deriving DecidableEq

def starsL : List Char := "***".data
def msMarkL : List Char := "MODULE SUMMARY".data
def elMarkL : List Char := "ENTRY LIST".data
def dashesL : List Char := "---".data
def gtMarkL : List Char := "Grand Total:".data
def totalMarkL : List Char := "Total:".data
def gapsL : List Char := "Gaps".data
def linkerCreatedL : List Char := "Linker created".data
def dotOL : List Char := ".o".data
def moduleLblL : List Char := "Module".data
def roCodeLblL : List Char := "ro code".data
def roDataLblL : List Char := "ro data".data
def rwDataLblL : List Char := "rw data".data
def entryLblL : List Char := "Entry".data
def addressLblL : List Char := "Address".data
def sizeLblL : List Char := "Size".data
def codeL : List Char := "Code".data
def dataL : List Char := "Data".data
def gbL : List Char := "Gb".data
def lcL : List Char := "Lc".data
def wkL : List Char := "Wk".data
def dashL : List Char := "-".data
def iarL : List Char := "IAR ELF Linker".data
def bytesRoL : List Char := "bytes of readonly".data
def codeMemL : List Char := "code memory".data
def dataMemL : List Char := "data memory".data
def bytesRwL : List Char := "bytes of readwrite data memory".data
def dotDirL : List Char := ".dir".data

/-- A module-summary banner line: both markers present. -/
def msBanner (l : Line) : Bool := containsSub msMarkL l && containsSub starsL l

/-- An entry-list banner line: both markers present. -/
def elBanner (l : Line) : Bool := containsSub elMarkL l && containsSub starsL l

/-- The section-locating scan: one pass over all lines, assigning the index
on every banner match (an `elif` pairs the two tests). -/
def locGo : Nat → Option Nat → Option Nat → List Line → Option Nat × Option Nat
  | _, ms, el, [] => (ms, el)
  | i, ms, el, l :: rest =>
    if msBanner l then locGo (i + 1) (some i) el rest
    else if elBanner l then locGo (i + 1) ms (some i) rest
    else locGo (i + 1) ms el rest

def locateSections (lines : List Line) : Option Nat × Option Nat := locGo 0 none none lines

def msHdrP (l : Line) : Bool := containsSub moduleLblL l && containsSub roCodeLblL l

def elHdrP (l : Line) : Bool :=
  containsSub entryLblL l && containsSub addressLblL l && containsSub sizeLblL l

/-- Header search over `range(s, min(s + 10, len(lines)))`: indices from `i`
with a budget of `n` more to try, stopping at the end of the list. -/
def findHdr (p : Line → Bool) (lines : List Line) : Nat → Nat → Option Nat
  | _, 0 => none
  | i, n + 1 =>
    if i < lines.length then
      if p (lines.getD i []) then some i else findHdr p lines (i + 1) n
    else none

/-- Text allowed after the colon of a group header: optional whitespace, an
optional bracketed decimal count, optional whitespace, end of line. -/
def gmTailOK (t : List Char) : Bool :=
  let u := stripWS t
  u.isEmpty ||
    match u with
    | '[' :: r =>
      !r.isEmpty && (r.getLast? == some ']') && !r.dropLast.isEmpty && r.dropLast.all Char.isDigit
    | _ => false

/-- Scan for the leftmost colon whose tail is acceptable; `pre` holds the
consumed characters reversed (the lazy group of the header regex). -/
def gmFind : List Char → List Char → Option (List Char)
  | _, [] => none
  | pre, c :: t =>
    if c == ':' then
      if gmTailOK t then some pre.reverse else gmFind (c :: pre) t
    else gmFind (c :: pre) t

/-- Group 1 of the group-header regex: the shortest nonempty prefix starting
with a non-space character that is followed by a colon and an acceptable
tail. -/
def gmGroup (l : Line) : Option (List Char) :=
  match l with
  | [] => none
  | c :: rest => if pySpace c then none else gmFind [c] rest

def bs2slash (c : Char) : Char := if c == '\\' then '/' else c

/-- Final path segment: the suffix after the last slash. -/
def lastSlashSeg (l : List Char) : List Char :=
  (l.reverse.takeWhile (fun c => !(c == '/'))).reverse

/-- Fueled scan removing every `_<ten or more digits>.dir` decoration; each
step consumes at least one character, so fuel equal to the length is exact. -/
def subHashDirGo : Nat → List Char → List Char
  | 0, s => s
  | _ + 1, [] => []
  | n + 1, '_' :: rest =>
    let ds := rest.takeWhile Char.isDigit
    let r2 := rest.dropWhile Char.isDigit
    if 10 ≤ ds.length then
      if startsWithL dotDirL r2 then subHashDirGo n (r2.drop 4)
      else '_' :: subHashDirGo n rest
    else '_' :: subHashDirGo n rest
  | n + 1, c :: rest => c :: subHashDirGo n rest

/-- The `re.sub` removing underscore-hash-dot-dir decorations. -/
def subHashDir (s : List Char) : List Char := subHashDirGo s.length s

/-- Simplification applied to a freshly read group label: collapse path-like
labels to their final segment (keeping the original when that segment is
empty) and remove hash-dir decorations. -/
def groupTransform (g0 : List Char) : List Char :=
  let g1 :=
    if containsSub ['\\'] g0 || containsSub ['/'] g0 then
      let seg := lastSlashSeg (g0.map bs2slash)
      if seg.isEmpty then g0 else seg
    else g0
  subHashDir g1

/-- Module data-row regex: leading whitespace, a token ending in `.o` with at
least one character before it, at least one whitespace, then the rest of the
line.  Returns the token and group 2 (the rest after the whitespace run). -/
def modRow (l : Line) : Option (List Char × List Char) :=
  match l with
  | [] => none
  | c :: _ =>
    if pySpace c then
      let afterWs := l.dropWhile pySpace
      let tok := afterWs.takeWhile (fun ch => !pySpace ch)
      let r := afterWs.dropWhile (fun ch => !pySpace ch)
      if 3 ≤ tok.length then
        if endsWithL dotOL tok && !r.isEmpty then some (tok, r.dropWhile pySpace)
        else none
      else none
    else none

/-- A byte-count column region: blank stays 0, otherwise decoded. -/
def colVal (t : List Char) : Option Int :=
  if t.isEmpty then some 0 else parse_iar_number t

/-- The three byte counts of a module row: offset slicing against the header
columns when all three are known, otherwise positional fallback over the
numeric tokens, otherwise zeros. -/
def moduleFields (roc rod rwd : Int) (l : Line) (nums : List Int) : Option (Int × Int × Int) :=
  if 0 ≤ roc ∧ 0 ≤ rod ∧ 0 ≤ rwd then
    let padded := ljustSp (rwd.toNat + 10) l
    match colVal (stripWS (sliceL roc.toNat rod.toNat padded)),
          colVal (stripWS (sliceL rod.toNat rwd.toNat padded)),
          colVal (stripWS (padded.drop rwd.toNat)) with
    | some a, some b, some c => some (a, b, c)
    | _, _, _ => none
  else if !nums.isEmpty then some (nums.getD 0 0, nums.getD 1 0, nums.getD 2 0)
  else some (0, 0, 0)

/-- Decode every digit-group token of a line, failing on the first bad one
(the source builds the whole list before using it). -/
def decodeList : List (List Char) → Option (List Int)
  | [] => some []
  | t :: ts =>
    match parse_iar_number t, decodeList ts with
    | some v, some vs => some (v :: vs)
    | _, _ => none

/-- Assignment of decoded Grand Total numbers, left to right, keeping
previous values for the missing tail. -/
def gtUpdate (gt : GrandTotal) (nums : List Int) : GrandTotal :=
  if 3 ≤ nums.length then
    { ro_code := nums.getD 0 0, ro_data := nums.getD 1 0, rw_data := nums.getD 2 0 }
  else if nums.length = 2 then { gt with ro_code := nums.getD 0 0, ro_data := nums.getD 1 0 }
  else if nums.length = 1 then { gt with ro_code := nums.getD 0 0 }
  else gt

inductive StepRes where
  | halt : StepRes
  | err : StepRes
  | cont (g : List Char) (gt : GrandTotal) (m : Option Module) : StepRes
deriving DecidableEq

/-- The group-header rule: the regex must match and the first token of the
stripped line must not contain `.o`. -/
def groupHeaderName (l : Line) (st : List Char) : Option (List Char) :=
  match gmGroup l with
  | some g1 =>
    if containsSub dotOL (st.takeWhile (fun c => !pySpace c)) then none
    else some (stripWS g1)
  | none => none

/-- Classification of one MODULE SUMMARY body line, in the exact order of the
source loop: terminating banner; blank or dashes; Grand Total row; group
subtotal; linker bookkeeping; group header; module data row; anything else
skipped. -/
def msStep (roc rod rwd : Int) (g : List Char) (gt : GrandTotal) (l : Line) : StepRes :=
  if containsSub starsL l && startsWithL starsL (stripWS l) then .halt
  else if (stripWS l).isEmpty || startsWithL dashesL (stripWS l) then .cont g gt none
  else if containsSub gtMarkL l then
    match decodeList (runsDA l) with
    | none => .err
    | some nums => .cont g (gtUpdate gt nums) none
  else if startsWithL totalMarkL (stripWS l) then .cont g gt none
  else if startsWithL gapsL (stripWS l) || startsWithL linkerCreatedL (stripWS l) then
    .cont g gt none
  else
    match groupHeaderName l (stripWS l) with
    | some g1 => .cont (groupTransform g1) gt none
    | none =>
      match modRow l with
      | some (tok, rest2) =>
        match decodeList (runsDA (stripWS rest2)) with
        | none => .err
        | some nums =>
          match moduleFields roc rod rwd l nums with
          | none => .err
          | some (a, b, c) => .cont g gt (some ⟨replaceDotO tok, g, a, b, c, a + b + c⟩)
      | none => .cont g gt none

/-- The MODULE SUMMARY body loop, one line at a time. -/
def msLoop (roc rod rwd : Int) :
    List Line → List Char → List Module → GrandTotal → Option (List Module × GrandTotal)
  | [], _, ms, gt => some (ms, gt)
  | l :: rest, g, ms, gt =>
    match msStep roc rod rwd g gt l with
    | .halt => some (ms, gt)
    | .err => none
    | .cont g1 gt1 m1 => msLoop roc rod rwd rest g1 (ms ++ m1.toList) gt1

def isHexDig (c : Char) : Bool := c.isDigit || ('a' ≤ c && c ≤ 'f') || ('A' ≤ c && c ≤ 'F')

/-- A hex-address token: `0x` then at least one hex digit or apostrophe. -/
def addrTokOK (t : List Char) : Bool :=
  startsWithL zeroXL t && !(t.drop 2).isEmpty && (t.drop 2).all (fun c => isHexDig c || c == apoC)

/-- A hex-size token: `0x` then at least one hex digit. -/
def sizeTokOK (t : List Char) : Bool :=
  startsWithL zeroXL t && !(t.drop 2).isEmpty && (t.drop 2).all isHexDig

def tokOf (s : List Char) : List Char := s.takeWhile (fun c => !pySpace c)

def restOf (s : List Char) : List Char := s.dropWhile (fun c => !pySpace c)

/-- Match of the trailing fields of an entry: hex address, hex size, `Code`
or `Data`, `Gb`, `Lc` or `Wk`, each a whole whitespace-delimited token, then
mandatory whitespace and the object text. -/
def matchCont (s : List Char) :
    Option (List Char × List Char × List Char × List Char × List Char) :=
  let t2 := tokOf s
  let r2 := restOf s
  if addrTokOK t2 && !r2.isEmpty then
    let s3 := r2.dropWhile pySpace
    let t3 := tokOf s3
    let r3 := restOf s3
    if sizeTokOK t3 && !r3.isEmpty then
      let s4 := r3.dropWhile pySpace
      let t4 := tokOf s4
      let r4 := restOf s4
      if (t4 == codeL || t4 == dataL) && !r4.isEmpty then
        let s5 := r4.dropWhile pySpace
        let t5 := tokOf s5
        let r5 := restOf s5
        if (t5 == gbL || t5 == lcL || t5 == wkL) && !r5.isEmpty then
          some (t2, t3, t4, t5, r5.dropWhile pySpace)
        else none
      else none
    else none
  else none

/-- Match of the full single-line entry regex: a name token, then the
trailing fields. -/
def matchFullEntry (s : List Char) :
    Option (List Char × List Char × List Char × List Char × List Char × List Char) :=
  let t1 := tokOf s
  let r1 := restOf s
  if !t1.isEmpty && !r1.isEmpty then
    match matchCont (r1.dropWhile pySpace) with
    | some (t2, t3, t4, t5, g6) => some (t1, t2, t3, t4, t5, g6)
    | none => none
  else none

/-- The footnote pattern ending the entry list: `[<digits>]`, optional
whitespace, `=`. -/
def footnoteB (st : List Char) : Bool :=
  match st with
  | '[' :: r =>
    let ds := r.takeWhile Char.isDigit
    let r2 := r.dropWhile Char.isDigit
    !ds.isEmpty &&
      (match r2 with
       | ']' :: r3 =>
         (match r3.dropWhile pySpace with
          | '=' :: _ => true
          | _ => false)
       | _ => false)
  | _ => false

/-- Entry construction: apostrophes are removed from the address, the object
text is stripped, and the size is the decoded hex size. -/
def mkEntry (nm t2 t3 t4 t5 g6 : List Char) : Entry :=
  { name := nm, address := t2.filter (fun c => !(c == apoC)), size := hexVal t3,
    type := t4, scope := t5, object := stripWS g6 }

inductive EStep where
  | stop : EStep
  | skip : EStep
  | emit (e : Entry) : EStep
  | tryWrap (nm : List Char) : EStep
deriving DecidableEq

/-- Classification of one ENTRY LIST body line, in source order: footnote
ends the section; blank lines are skipped; a full entry line emits when its
size is positive and is otherwise consumed silently; a nonempty line not
starting with `0x` or a dash is a candidate wrapped-entry name; anything
else is skipped. -/
def entryClass (l : Line) : EStep :=
  if footnoteB (stripWS l) then .stop
  else if (stripWS l).isEmpty then .skip
  else
    match matchFullEntry (stripWS l) with
    | some (t1, t2, t3, t4, t5, g6) =>
      if 0 < hexVal t3 then .emit (mkEntry t1 t2 t3 t4 t5 g6) else .skip
    | none =>
      if startsWithL zeroXL (stripWS l) || startsWithL dashL (stripWS l) then .skip
      else .tryWrap (stripWS l)

/-- The ENTRY LIST body loop.  A candidate wrapped name whose next line
matches the continuation pattern consumes both lines, emitting when the size
is positive; with no matching next line (or no next line at all) it is
skipped as an unrecognized line. -/
def entryLoop : List Line → List Entry
  | [] => []
  | [l] =>
    match entryClass l with
    | .emit e => [e]
    | _ => []
  | l :: l2 :: rest2 =>
    match entryClass l with
    | .stop => []
    | .skip => entryLoop (l2 :: rest2)
    | .emit e => e :: entryLoop (l2 :: rest2)
    | .tryWrap nm =>
      match matchCont (stripWS l2) with
      | some (t2, t3, t4, t5, g6) =>
        if 0 < hexVal t3 then mkEntry nm t2 t3 t4 t5 g6 :: entryLoop rest2
        else entryLoop rest2
      | none => entryLoop (l2 :: rest2)

/-- Stable insertion of an entry into a size-descending list: the new entry
goes after every earlier entry of size at least its own.  Python `list.sort`
with `reverse=True` is stable, and a stable sort is extensionally unique, so
insertion sort models it exactly. -/
def insEntry (a : Entry) : List Entry → List Entry
  | [] => [a]
  | b :: t => if a.size < b.size then b :: insEntry a t else a :: b :: t

/-- The final size-descending stable sort of the entry list. -/
def sortEntries : List Entry → List Entry
  | [] => []
  | a :: t => insEntry a (sortEntries t)

def sumTokChar (c : Char) : Bool := c.isDigit || c == apoC || c == ','

/-- Leading part shared by the three prose-totals patterns: optional
whitespace, a nonempty digit-group token, then at least one whitespace.
Returns the token and the rest after the whitespace run. -/
def proseTok (l : Line) : Option (List Char × List Char) :=
  let s1 := l.dropWhile pySpace
  let tok := s1.takeWhile sumTokChar
  let r := s1.dropWhile sumTokChar
  if tok.isEmpty then none
  else
    match r with
    | [] => none
    | c :: _ => if pySpace c then some (tok, r.dropWhile pySpace) else none

/-- Prose pattern with a single literal after the token. -/
def matchBytes1 (lit : List Char) (l : Line) : Option (List Char) :=
  match proseTok l with
  | some (tok, r2) => if startsWithL lit r2 then some tok else none
  | none => none

/-- Prose pattern with two literals separated by mandatory whitespace. -/
def matchBytes2 (lit1 lit2 : List Char) (l : Line) : Option (List Char) :=
  match proseTok l with
  | some (tok, r2) =>
    if startsWithL lit1 r2 then
      match r2.drop lit1.length with
      | [] => none
      | c :: _ =>
        if pySpace c then
          if startsWithL lit2 ((r2.drop lit1.length).dropWhile pySpace) then some tok else none
        else none
    else none
  | none => none

/-- Overwrite a summary field when its pattern matched, decoding the token
(decoding failure aborts as in the source). -/
def applyPat (upd : Summary → Int → Summary) (mt : Option (List Char)) (sm : Summary) :
    Option Summary :=
  match mt with
  | some tok => (parse_iar_number tok).map (upd sm)
  | none => some sm

/-- One line of the trailing-summary scan: the three patterns are checked
independently, in order, each match overwriting its field. -/
def sumStep (sm : Summary) (l : Line) : Option Summary :=
  (applyPat (fun s v => { s with readonly_code := v }) (matchBytes2 bytesRoL codeMemL l) sm).bind
    fun s1 =>
      (applyPat (fun s v => { s with readonly_data := v }) (matchBytes2 bytesRoL dataMemL l)
            s1).bind
        fun s2 => applyPat (fun s v => { s with readwrite_data := v }) (matchBytes1 bytesRwL l) s2

def sumLoop : List Line → Summary → Option Summary
  | [], sm => some sm
  | l :: rest, sm =>
    match sumStep sm l with
    | none => none
    | some sm1 => sumLoop rest sm1

/-- Toolchain banner: the first of the first ten lines containing the marker,
stripped and with leading hash characters removed. -/
def toolchainOf (lines : List Line) : List Char :=
  match (lines.take 10).find? (fun l => containsSub iarL l) with
  | some l => stripWS ((stripWS l).dropWhile (fun c => c == '#'))
  | none => []

/-- The MODULE SUMMARY phase: locate the banner (last occurrence, as in the
source scan), find a header within the banner line and the following nine,
read the three column offsets from it, and run the body loop from two lines
after the header.  Missing banner or header leaves the section empty. -/
def moduleSummaryPhase (lines : List Line) : Option (List Module × GrandTotal) :=
  match (locateSections lines).1 with
  | none => some ([], ⟨0, 0, 0⟩)
  | some s =>
    match findHdr msHdrP lines s 10 with
    | none => some ([], ⟨0, 0, 0⟩)
    | some h =>
      msLoop (pyFind roCodeLblL (lines.getD h [])) (pyFind roDataLblL (lines.getD h []))
        (pyFind rwDataLblL (lines.getD h [])) (lines.drop (h + 2)) [] [] ⟨0, 0, 0⟩

/-- The ENTRY LIST phase, analogous; the header column offsets the source
computes here are never used afterwards and are omitted. -/
def entryListPhase (lines : List Line) : List Entry :=
  match (locateSections lines).2 with
  | none => []
  | some s =>
    match findHdr elHdrP lines s 10 with
    | none => []
    | some h => entryLoop (lines.drop (h + 2))

/-- The trailing-summary phase over the final twenty lines. -/
def summaryPhase (lines : List Line) : Option Summary :=
  sumLoop (lines.drop (lines.length - 20)) ⟨0, 0, 0⟩

/-- `parse_map_file` over the decoded line sequence: the three phases feed
one `ReportModel`, whose entry list is sorted size-descending; `none` models
a `ValueError` escaping the parse. -/
def parse_map_file (lines : List Line) : Option ReportModel :=
  match moduleSummaryPhase lines, summaryPhase lines with
  | some (ms, gt), some sm =>
    some { toolchain_info := toolchainOf lines, modules := ms,
           entries := sortEntries (entryListPhase lines), grand_total := gt, summary := sm }
  | _, _ => none

/-- Index of the last line satisfying `p` (reference for the locator). -/
def lastIdxP (p : Line → Bool) : List Line → Option Nat
  | [] => none
  | l :: rest =>
    match lastIdxP p rest with
    | some j => some (j + 1)
    | none => if p l then some 0 else none

/-- The entry-list test as guarded by the `elif`. -/
def elOnly (l : Line) : Bool := !msBanner l && elBanner l

/-- A complete synthetic report exercising both sections, a wrapped entry,
equal-size entries and the three prose totals. -/
def exFull : List Line :=
  ["# IAR ELF Linker V8".data,
   "*** MODULE SUMMARY".data,
   "  Module  ro code  ro data  rw data".data,
   "  ----".data,
   "  main.o  10       4        2".data,
   "  Grand Total:    10        4        2".data,
   "*** ENTRY LIST".data,
   "  Entry  Address  Size  Type  Object".data,
   "  ----".data,
   "f1  0x1000  0x8  Code  Gb  main.o".data,
   "longname".data,
   "0x2000  0xc8  Data  Lc  a.o".data,
   "f2  0x3000  0x8  Code  Gb  b.o".data,
   "[1] = note".data,
   "100 bytes of readonly  code memory".data,
   "20 bytes of readonly  data memory".data,
   "30 bytes of readwrite data memory".data]

def entL : Entry := ⟨"longname".data, "0x2000".data, 200, dataL, lcL, "a.o".data⟩

def entF1 : Entry := ⟨"f1".data, "0x1000".data, 8, codeL, gbL, "main.o".data⟩

def entF2 : Entry := ⟨"f2".data, "0x3000".data, 8, codeL, gbL, "b.o".data⟩

def modMain : Module := ⟨"main".data, [], 10, 4, 2, 16⟩

def exModel : ReportModel :=
  { toolchain_info := "IAR ELF Linker V8".data, modules := [modMain],
    entries := [entL, entF1, entF2], grand_total := ⟨10, 4, 2⟩, summary := ⟨100, 20, 30⟩ }


/-- A report whose Grand Total line carries a separator-only digit-group
token (three apostrophes): `int()` raises on it. -/
def exGtApos : List Line :=
  ["*** MODULE SUMMARY".data,
   "  Module  ro code  ro data  rw data".data,
   "  ----".data,
   ("  Grand Total:  12  ".data ++ [apoC, apoC, apoC])]

/-- Two module-summary banner lines. -/
def exTwoBanners : List Line :=
  ["*** MODULE SUMMARY (one)".data, "*** MODULE SUMMARY (two)".data]

/-- A module row whose object token has an interior `.o` occurrence. -/
def exInnerDotO : List Line :=
  ["*** MODULE SUMMARY".data,
   "  Module  ro code  ro data  rw data".data,
   "  ----".data,
   "  x.old.o 1        2        3".data]

/-- A module-summary banner with no header line in reach, a Grand Total row
in the body, and a well-formed trailing summary. -/
def exNoHdr : List Line :=
  ["*** MODULE SUMMARY".data, "  Grand Total: 5".data]

/-- An entry-list banner with no header line in reach. -/
def exNoHdrEl : List Line := ["*** ENTRY LIST".data]

/-- Same missing-header module section, but the trailing free text holds a
separator-only token in a prose-totals sentence. -/
def exNoHdrBadSum : List Line :=
  ["*** MODULE SUMMARY".data, "  Grand Total: 5".data,
   (",, bytes of readwrite data memory".data)]


theorem mem_insEntry (x a : Entry) : ∀ l, x ∈ insEntry a l ↔ x = a ∨ x ∈ l := by
  intro l
  induction l with
  | nil => simp [insEntry]
  | cons b t ih =>
    by_cases h : a.size < b.size
    · simp only [insEntry, if_pos h, List.mem_cons, ih]
      tauto
    · simp only [insEntry, if_neg h, List.mem_cons]

theorem pairwise_insEntry (a : Entry) :
    ∀ l, l.Pairwise (fun x y => y.size ≤ x.size) →
      (insEntry a l).Pairwise (fun x y => y.size ≤ x.size) := by
  intro l
  induction l with
  | nil => intro _; simp [insEntry]
  | cons b t ih =>
    intro hp
    rcases List.pairwise_cons.mp hp with ⟨hb, ht⟩
    by_cases h : a.size < b.size
    · simp only [insEntry, if_pos h]
      refine List.pairwise_cons.mpr ⟨?_, ih ht⟩
      intro y hy
      rcases (mem_insEntry y a t).mp hy with rfl | hyt
      · exact Nat.le_of_lt h
      · exact hb y hyt
    · simp only [insEntry, if_neg h]
      refine List.pairwise_cons.mpr ⟨?_, hp⟩
      intro y hy
      rcases List.mem_cons.mp hy with rfl | hyt
      · exact Nat.le_of_not_lt h
      · exact le_trans (hb y hyt) (Nat.le_of_not_lt h)

theorem sortEntries_pairwise :
    ∀ l, (sortEntries l).Pairwise (fun x y => y.size ≤ x.size) := by
  intro l
  induction l with
  | nil => simp [sortEntries]
  | cons a t ih => exact pairwise_insEntry a _ ih

theorem mem_sortEntries (x : Entry) : ∀ l, x ∈ sortEntries l ↔ x ∈ l := by
  intro l
  induction l with
  | nil => simp [sortEntries]
  | cons a t ih => simp [sortEntries, mem_insEntry, ih]

theorem filter_insEntry (k : Nat) (a : Entry) :
    ∀ l, (insEntry a l).filter (fun e => e.size == k) =
      ((a :: l).filter (fun e => e.size == k)) := by
  intro l
  induction l with
  | nil => simp [insEntry]
  | cons b t ih =>
    by_cases h : a.size < b.size
    · simp only [insEntry, if_pos h]
      by_cases hk : a.size = k
      · have hbk : ¬b.size = k := by omega
        simp [List.filter_cons, hk, hbk, ih]
      · simp [List.filter_cons, hk, ih]
    · simp only [insEntry, if_neg h]

theorem filter_sortEntries (k : Nat) :
    ∀ l, (sortEntries l).filter (fun e => e.size == k) = l.filter (fun e => e.size == k) := by
  intro l
  induction l with
  | nil => rfl
  | cons a t ih =>
    have h1 := filter_insEntry k a (sortEntries t)
    simp only [sortEntries, h1, List.filter_cons, ih]

theorem entryClass_emit_pos (l : Line) (e : Entry) (h : entryClass l = .emit e) : 0 < e.size := by
  unfold entryClass at h
  split at h
  · cases h
  · split at h
    · cases h
    · split at h
      · rename_i t1 t2 t3 t4 t5 g6 heq
        split at h
        · rename_i hpos
          cases h
          simpa [mkEntry] using hpos
        · cases h
      · split at h
        · cases h
        · cases h

theorem entryLoop_pos :
    ∀ (n : Nat) (lines : List Line), lines.length ≤ n → ∀ e ∈ entryLoop lines, 0 < e.size := by
  intro n
  induction n with
  | zero =>
    intro lines hl e he
    have : lines = [] := by cases lines <;> simp_all
    subst this
    simp [entryLoop] at he
  | succ n ih =>
    intro lines hl e he
    match lines with
    | [] => simp [entryLoop] at he
    | [l] =>
      rcases hc : entryClass l with _ | _ | e1 | nm <;>
        simp only [entryLoop, hc] at he
      · cases he
      · cases he
      · rcases List.mem_singleton.mp he with rfl
        exact entryClass_emit_pos l e hc
      · cases he
    | l :: l2 :: rest2 =>
      have hrest : (l2 :: rest2).length ≤ n := by
        simp only [List.length_cons] at hl ⊢; omega
      have hrest2 : rest2.length ≤ n := by
        simp only [List.length_cons] at hl; omega
      rcases hc : entryClass l with _ | _ | e1 | nm <;>
        simp only [entryLoop, hc] at he
      · cases he
      · exact ih _ hrest e he
      · rcases List.mem_cons.mp he with rfl | he2
        · exact entryClass_emit_pos l e hc
        · exact ih _ hrest e he2
      · rcases hmc : matchCont (stripWS l2) with _ | ⟨t2, t3, t4, t5, g6⟩ <;>
          simp only [hmc] at he
        · exact ih _ hrest e he
        · by_cases hpos : 0 < hexVal t3
          · rw [if_pos hpos] at he
            rcases List.mem_cons.mp he with rfl | he2
            · simpa [mkEntry] using hpos
            · exact ih _ hrest2 e he2
          · rw [if_neg hpos] at he
            exact ih _ hrest2 e he

theorem entryListPhase_pos (lines : List Line) : ∀ e ∈ entryListPhase lines, 0 < e.size := by
  intro e he
  unfold entryListPhase at he
  split at he
  · cases he
  · split at he
    · cases he
    · exact entryLoop_pos _ _ le_rfl e he

theorem msStep_cont_module (roc rod rwd : Int) (g : List Char) (gt : GrandTotal) (l : Line)
    (g1 : List Char) (gt1 : GrandTotal) (m : Module)
    (h : msStep roc rod rwd g gt l = .cont g1 gt1 (some m)) :
    m.total = m.ro_code + m.ro_data + m.rw_data := by
  unfold msStep at h
  split at h
  · cases h
  · split at h
    · cases h
    · split at h
      · split at h
        · cases h
        · cases h
      · split at h
        · cases h
        · split at h
          · cases h
          · split at h
            · cases h
            · split at h
              · split at h
                · cases h
                · split at h
                  · cases h
                  · rename_i a b c heq
                    cases h
                    rfl
              · cases h

theorem msLoop_total_inv (roc rod rwd : Int) :
    ∀ (lines : List Line) (g : List Char) (ms : List Module) (gt : GrandTotal)
      (out : List Module × GrandTotal),
      (∀ m ∈ ms, m.total = m.ro_code + m.ro_data + m.rw_data) →
      msLoop roc rod rwd lines g ms gt = some out →
      ∀ m ∈ out.1, m.total = m.ro_code + m.ro_data + m.rw_data := by
  intro lines
  induction lines with
  | nil =>
    intro g ms gt out hms h
    simp only [msLoop] at h
    cases h
    exact hms
  | cons l rest ih =>
    intro g ms gt out hms h
    rcases hs : msStep roc rod rwd g gt l with _ | _ | ⟨g1, gt1, m1⟩ <;>
      simp only [msLoop, hs] at h
    · cases h; exact hms
    · exact Option.noConfusion h
    · refine ih g1 (ms ++ m1.toList) gt1 out ?_ h
      intro m hm
      rcases List.mem_append.mp hm with hm1 | hm2
      · exact hms m hm1
      · rcases m1 with _ | mod
        · cases hm2
        · rcases List.mem_singleton.mp (by simpa [Option.toList] using hm2) with rfl
          exact msStep_cont_module roc rod rwd g gt l g1 gt1 m hs

theorem moduleSummaryPhase_total (lines : List Line) (ms : List Module) (gt : GrandTotal)
    (h : moduleSummaryPhase lines = some (ms, gt)) :
    ∀ m ∈ ms, m.total = m.ro_code + m.ro_data + m.rw_data := by
  unfold moduleSummaryPhase at h
  split at h
  · cases h; simp
  · split at h
    · cases h; simp
    · exact msLoop_total_inv _ _ _ _ _ _ _ (ms, gt) (by simp) h

theorem parse_map_file_eq (lines : List Line) (r : ReportModel)
    (h : parse_map_file lines = some r) :
    ∃ ms gt sm, moduleSummaryPhase lines = some (ms, gt) ∧ summaryPhase lines = some sm ∧
      r = ⟨toolchainOf lines, ms, sortEntries (entryListPhase lines), gt, sm⟩ := by
  unfold parse_map_file at h
  rcases hm : moduleSummaryPhase lines with _ | ⟨ms, gt⟩ <;>
    rcases hs : summaryPhase lines with _ | sm <;>
      simp only [hm, hs] at h
  · cases h
  · cases h
  · cases h
  · cases h
    exact ⟨ms, gt, sm, rfl, rfl, rfl⟩

theorem pySpace_not_digit (c : Char) (h : pySpace c = true) : c.isDigit = false := by
  unfold pySpace at h
  simp only [Bool.or_eq_true, beq_iff_eq] at h
  rcases h with ((((rfl | rfl) | rfl) | rfl) | rfl) | rfl <;> decide

theorem digit_not_ws (c : Char) (h : c.isDigit = true) : pySpace c = false := by
  cases hsp : pySpace c
  · rfl
  · exact absurd h (by simp [pySpace_not_digit c hsp])

theorem digit_char_ne (c d : Char) (h : c.isDigit = true) (hd : d.isDigit = false) :
    (c == d) = false := by
  cases he : c == d
  · rfl
  · rw [beq_iff_eq] at he
    subst he
    rw [h] at hd
    cases hd

theorem filter_isDigit_dropWhile :
    ∀ l : List Char, ((l.dropWhile pySpace).filter Char.isDigit) = l.filter Char.isDigit := by
  intro l
  induction l with
  | nil => rfl
  | cons c cs ih =>
    cases hc : pySpace c
    · simp [List.dropWhile_cons, hc]
    · simp [List.dropWhile_cons, hc, ih, List.filter_cons, pySpace_not_digit c hc]

theorem filter_isDigit_stripWS (l : List Char) :
    (stripWS l).filter Char.isDigit = l.filter Char.isDigit := by
  unfold stripWS
  rw [List.filter_reverse, filter_isDigit_dropWhile, List.filter_reverse,
    filter_isDigit_dropWhile, List.reverse_reverse]

theorem dropWhile_eq_self_of_all (l : List Char) (h : ∀ c ∈ l, pySpace c = false) :
    l.dropWhile pySpace = l := by
  cases l with
  | nil => rfl
  | cons c cs => simp [List.dropWhile_cons, h c (List.mem_cons_self c cs)]

theorem stripWS_eq_self_of_all (l : List Char) (h : ∀ c ∈ l, pySpace c = false) :
    stripWS l = l := by
  unfold stripWS
  rw [dropWhile_eq_self_of_all l h,
    dropWhile_eq_self_of_all l.reverse (fun c hc => h c (List.mem_reverse.mp hc)),
    List.reverse_reverse]

theorem uTail_of_all_digits : ∀ l : List Char, (∀ c ∈ l, c.isDigit = true) → uTail l = true := by
  intro l
  induction l with
  | nil => intro _; rfl
  | cons c cs ih =>
    intro h
    have hc := h c (List.mem_cons_self c cs)
    have hne : (c == '_') = false := digit_char_ne c '_' hc (by decide)
    have hrec := ih (fun d hd => h d (List.mem_cons_of_mem c hd))
    rw [uTail.eq_def]
    simp [hne, hc, hrec]

theorem allowed_filter (u : List Char)
    (H : ∀ c ∈ u, c.isDigit = true ∨ c = apoC ∨ c = ',') :
    (u.filter (fun c => !(c == apoC))).filter (fun c => !(c == ',')) =
      u.filter Char.isDigit := by
  induction u with
  | nil => rfl
  | cons c cs ih =>
    have hc := H c (List.mem_cons_self c cs)
    have ihr := ih (fun d hd => H d (List.mem_cons_of_mem c hd))
    rcases hc with hd | rfl | rfl
    · have h1 : (c == apoC) = false := digit_char_ne c apoC hd (by decide)
      have h2 : (c == ',') = false := digit_char_ne c ',' hd (by decide)
      simp [List.filter_cons, h1, h2, hd, ihr]
    · simp [List.filter_cons, ihr, (by decide : apoC.isDigit = false)]
    · simp [List.filter_cons, ihr, (by decide : ((',' : Char) == apoC) = false),
        (by decide : (',' : Char).isDigit = false)]

theorem pyInt_digits (v : List Char) (hne : v ≠ []) (hvd : ∀ c ∈ v, c.isDigit = true) :
    pyInt v = some ((digitsVal v : Nat) : Int) := by
  have hstrip : stripWS v = v := stripWS_eq_self_of_all v (fun d hd => digit_not_ws d (hvd d hd))
  rcases v with _ | ⟨c, cs⟩
  · exact absurd rfl hne
  · have hcd : c.isDigit = true := hvd c (List.mem_cons_self c cs)
    have hplus : ¬List.take 1 (c :: cs) = ['+'] := by
      intro hx
      have hcp : c = '+' := by simpa using hx
      rw [hcp] at hcd
      exact absurd hcd (by decide)
    have hminus : ¬List.take 1 (c :: cs) = ['-'] := by
      intro hx
      have hcm : c = '-' := by simpa using hx
      rw [hcm] at hcd
      exact absurd hcd (by decide)
    have hok : pyDigitsOK (c :: cs) = true := by
      simp only [pyDigitsOK, hcd, Bool.true_and]
      exact uTail_of_all_digits cs (fun d hd => hvd d (List.mem_cons_of_mem c hd))
    have hfe : (c :: cs).filter Char.isDigit = c :: cs :=
      List.filter_eq_self.mpr (fun a ha => hvd a ha)
    simp only [pyInt, hstrip, if_neg hplus, if_neg hminus]
    simp [pyDigits, if_pos hok, hfe]

theorem locGo_eq :
    ∀ (lines : List Line) (i : Nat) (ms el : Option Nat),
      locGo i ms el lines =
        ((lastIdxP msBanner lines).elim ms (fun j => some (i + j)),
         (lastIdxP elOnly lines).elim el (fun j => some (i + j))) := by
  intro lines
  induction lines with
  | nil => intro i ms el; rfl
  | cons l rest ih =>
    intro i ms el
    cases h1 : msBanner l
    · cases h2 : elBanner l
      · have h2e : elOnly l = false := by simp [elOnly, h2]
        rw [locGo.eq_def]
        simp only [h1, h2, Bool.false_eq_true, if_true, if_false, ite_true, ite_false]
        rw [ih]
        rcases hr1 : lastIdxP msBanner rest with _ | j1 <;>
          rcases hr2 : lastIdxP elOnly rest with _ | j2 <;>
            simp [lastIdxP, hr1, hr2, h1, h2e, Nat.add_assoc, Nat.add_comm 1]
      · have h2e : elOnly l = true := by simp [elOnly, h1, h2]
        rw [locGo.eq_def]
        simp only [h1, h2, Bool.false_eq_true, if_true, if_false, ite_true, ite_false]
        rw [ih]
        rcases hr1 : lastIdxP msBanner rest with _ | j1 <;>
          rcases hr2 : lastIdxP elOnly rest with _ | j2 <;>
            simp [lastIdxP, hr1, hr2, h1, h2e, Nat.add_assoc, Nat.add_comm 1]
    · have h1e : elOnly l = false := by simp [elOnly, h1]
      rw [locGo.eq_def]
      simp only [h1, if_true, ite_true]
      rw [ih]
      rcases hr1 : lastIdxP msBanner rest with _ | j1 <;>
        rcases hr2 : lastIdxP elOnly rest with _ | j2 <;>
          simp [lastIdxP, hr1, hr2, h1, h1e, Nat.add_assoc, Nat.add_comm 1]

theorem exFull_eval : parse_map_file exFull = some exModel := by decide

/-- Claim C1 counterexample: a Grand Total line inside a recognized module
summary carrying a separator-only digit-group token makes the parse abort
(return none), contradicting the claim that no in-section body line content
can abort the parse. -/
theorem C1_counterexample : parse_map_file exGtApos = none := by decide

/-- Claim C1, amended: a body line of a recognized section matching none of
the classification rules is skipped and parsing continues unchanged — in the
module summary whenever no rule fires, in the entry list whenever the line is
not a footnote, not blank, matches no entry form and starts no wrapped pair;
only lines matching the Grand Total or module-row rules can abort, by an
undecodable numeric token. -/
theorem C1_unrecognized_skipped :
    (∀ (roc rod rwd : Int) (g : List Char) (gt : GrandTotal) (l : Line) (rest : List Line)
        (ms : List Module),
        (containsSub starsL l && startsWithL starsL (stripWS l)) = false →
        ((stripWS l).isEmpty || startsWithL dashesL (stripWS l)) = false →
        containsSub gtMarkL l = false →
        startsWithL totalMarkL (stripWS l) = false →
        (startsWithL gapsL (stripWS l) || startsWithL linkerCreatedL (stripWS l)) = false →
        groupHeaderName l (stripWS l) = none →
        modRow l = none →
        msLoop roc rod rwd (l :: rest) g ms gt = msLoop roc rod rwd rest g ms gt) ∧
    (∀ (l : Line) (rest : List Line),
        footnoteB (stripWS l) = false →
        (stripWS l).isEmpty = false →
        matchFullEntry (stripWS l) = none →
        (∀ l2 rest2, rest = l2 :: rest2 → matchCont (stripWS l2) = none) →
        entryLoop (l :: rest) = entryLoop rest) := by
  constructor
  · intro roc rod rwd g gt l rest ms h1 h2 h3 h4 h5 h6 h7
    have hstep : msStep roc rod rwd g gt l = .cont g gt none := by
      unfold msStep
      simp only [h1, h2, h3, h4, h5, h6, h7, Bool.false_eq_true, if_false, ite_false]
    simp only [msLoop, hstep]
    rw [show (Option.toList (none : Option Module)) = [] from rfl, List.append_nil]
  · intro l rest hf hne hfull hnext
    have hcl : entryClass l = .skip ∨ entryClass l = .tryWrap (stripWS l) := by
      unfold entryClass
      simp only [hf, hne, hfull, Bool.false_eq_true, if_false, ite_false]
      by_cases hz : (startsWithL zeroXL (stripWS l) || startsWithL dashL (stripWS l)) = true
      · rw [if_pos hz]
        left
        rfl
      · rw [if_neg hz]
        right
        rfl
    cases rest with
    | nil => rcases hcl with hcl | hcl <;> simp only [entryLoop, hcl]
    | cons l2 rest2 =>
      rcases hcl with hcl | hcl
      · simp only [entryLoop, hcl]
      · simp only [entryLoop, hcl, hnext l2 rest2 rfl]

theorem C1_unrecognized_skipped_witness :
    msLoop 10 19 28 ["random body text".data] [] [] ⟨0, 0, 0⟩ =
        msLoop 10 19 28 [] [] [] ⟨0, 0, 0⟩ ∧
      entryLoop ["strange line".data, "zzz".data] = entryLoop ["zzz".data] :=
  ⟨C1_unrecognized_skipped.1 10 19 28 [] ⟨0, 0, 0⟩ "random body text".data [] []
      (by decide) (by decide) (by decide) (by decide) (by decide) (by decide) (by decide),
    C1_unrecognized_skipped.2 "strange line".data ["zzz".data] (by decide) (by decide)
      (by rfl) (fun l2 rest2 hh => by cases hh; rfl)⟩

/-- Claim C2 counterexample: with two module-summary banners the locator
reports index 1 (the last), not index 0 (the first). -/
theorem C2_counterexample :
    msBanner (exTwoBanners.getD 0 []) = true ∧ msBanner (exTwoBanners.getD 1 []) = true ∧
      locateSections exTwoBanners = (some 1, none) := by decide

/-- Claim C2, amended: the section locator returns the index of the last
occurrence of each banner (an entry-list banner line that is also a
module-summary banner counts only as the latter). -/
theorem C2_locator_last_occurrence (lines : List Line) :
    locateSections lines = (lastIdxP msBanner lines, lastIdxP elOnly lines) := by
  unfold locateSections
  rw [locGo_eq]
  rcases h1 : lastIdxP msBanner lines with _ | j1 <;>
    rcases h2 : lastIdxP elOnly lines with _ | j2 <;> simp

/-- Claim C3: the entries of every returned report are sorted by size
descending (adjacent sizes are non-increasing) and the sort is stable: for
every size the subsequence of entries of that size is exactly the one
encountered by the entry-list phase, in order. -/
theorem C3_entries_sorted_stable (lines : List Line) (r : ReportModel)
    (h : parse_map_file lines = some r) :
    List.Chain' (fun a b => b.size ≤ a.size) r.entries ∧
      ∀ k : Nat, r.entries.filter (fun e => e.size == k) =
        (entryListPhase lines).filter (fun e => e.size == k) := by
  rcases parse_map_file_eq lines r h with ⟨ms, gt, sm, hm, hs, rfl⟩
  exact ⟨(sortEntries_pairwise _).chain', fun k => filter_sortEntries k _⟩

theorem C3_entries_sorted_stable_witness :
    List.Chain' (fun a b => b.size ≤ a.size) exModel.entries ∧
      exModel.entries.filter (fun e => e.size == 8) =
        (entryListPhase exFull).filter (fun e => e.size == 8) :=
  ⟨(C3_entries_sorted_stable exFull exModel exFull_eval).1,
    (C3_entries_sorted_stable exFull exModel exFull_eval).2 8⟩

/-- Claim C4: every entry of every returned report has positive size; entry
lines whose decoded hexadecimal size is zero contribute nothing. -/
theorem C4_entry_sizes_positive (lines : List Line) (r : ReportModel)
    (h : parse_map_file lines = some r) : ∀ e ∈ r.entries, 0 < e.size := by
  rcases parse_map_file_eq lines r h with ⟨ms, gt, sm, hm, hs, rfl⟩
  intro e he
  exact entryListPhase_pos lines e ((mem_sortEntries e _).mp he)

theorem C4_entry_sizes_positive_witness : 0 < entL.size :=
  C4_entry_sizes_positive exFull exModel exFull_eval entL (by decide)

/-- Claim C5: every module of every returned report satisfies
total = ro_code + ro_data + rw_data; the total is built from the three
decoded byte counts at construction. -/
theorem C5_module_total_derived (lines : List Line) (r : ReportModel)
    (h : parse_map_file lines = some r) :
    ∀ m ∈ r.modules, m.total = m.ro_code + m.ro_data + m.rw_data := by
  rcases parse_map_file_eq lines r h with ⟨ms, gt, sm, hm, hs, rfl⟩
  exact moduleSummaryPhase_total lines ms gt hm

theorem C5_module_total_derived_witness :
    modMain.total = modMain.ro_code + modMain.ro_data + modMain.rw_data :=
  C5_module_total_derived exFull exModel exFull_eval modMain (by decide)

/-- Claim C6 counterexample: the module row token x.old.o yields the module
name xld — every occurrence of .o is removed, not only the trailing
extension, which would give x.old. -/
theorem C6_counterexample :
    (parse_map_file exInnerDotO).map (fun r => r.modules.map (fun m => m.name)) =
        some ["xld".data] ∧ "xld".data ≠ "x.old".data := by decide

/-- Claim C6, amended: the name of the Module emitted for a module data row
is the object-file token with every occurrence of the text .o removed,
left to right and non-overlapping, not only a trailing extension. -/
theorem C6_name_removes_every_dot_o (roc rod rwd : Int) (g : List Char) (gt : GrandTotal)
    (l : Line) (tok rest2 : List Char) (nums : List Int) (a b c : Int) (rest : List Line)
    (ms : List Module)
    (h1 : (containsSub starsL l && startsWithL starsL (stripWS l)) = false)
    (h2 : ((stripWS l).isEmpty || startsWithL dashesL (stripWS l)) = false)
    (h3 : containsSub gtMarkL l = false)
    (h4 : startsWithL totalMarkL (stripWS l) = false)
    (h5 : (startsWithL gapsL (stripWS l) || startsWithL linkerCreatedL (stripWS l)) = false)
    (h6 : groupHeaderName l (stripWS l) = none)
    (h7 : modRow l = some (tok, rest2))
    (h8 : decodeList (runsDA (stripWS rest2)) = some nums)
    (h9 : moduleFields roc rod rwd l nums = some (a, b, c)) :
    msLoop roc rod rwd (l :: rest) g ms gt =
      msLoop roc rod rwd rest g (ms ++ [⟨replaceDotO tok, g, a, b, c, a + b + c⟩]) gt := by
  have hstep : msStep roc rod rwd g gt l =
      .cont g gt (some ⟨replaceDotO tok, g, a, b, c, a + b + c⟩) := by
    unfold msStep
    simp only [h1, h2, h3, h4, h5, h6, h7, h8, h9, Bool.false_eq_true, if_false, ite_false]
  simp only [msLoop, hstep]
  rfl

def rowC6 : Line := "  x.old.o 1        2        3".data

theorem C6_name_removes_every_dot_o_witness :
    msLoop 10 19 28 [rowC6] [] [] ⟨0, 0, 0⟩ =
      msLoop 10 19 28 [] [] ([] ++ [⟨replaceDotO "x.old.o".data, [], 1, 2, 3, 1 + 2 + 3⟩])
        ⟨0, 0, 0⟩ :=
  C6_name_removes_every_dot_o 10 19 28 [] ⟨0, 0, 0⟩ rowC6 "x.old.o".data
    "1        2        3".data [1, 2, 3] 1 2 3 [] [] (by decide) (by decide) (by decide)
    (by decide) (by decide) (by decide) (by decide) (by decide) (by decide)

def wrapName7 : Line := "a_very_long_symbol_name".data

def wrapData7 : Line := "0x08001234   0x000000c8   Code   Gb   main.o".data

def wrapEntry7 : Entry :=
  ⟨"a_very_long_symbol_name".data, "0x08001234".data, 200, codeL, gbL, "main.o".data⟩

/-- Claim C7: wherever the two given lines appear in an entry-list body, the
parser consumes them as one wrapped entry, emits exactly the expected Entry
with size 200, kind Code and scope Gb (spec name Global), and continues with
the lines after the second one. -/
theorem C7_wrapped_entry_consumed (rest : List Line) :
    entryLoop (wrapName7 :: wrapData7 :: rest) = wrapEntry7 :: entryLoop rest := by
  have hc : entryClass wrapName7 = .tryWrap "a_very_long_symbol_name".data := by decide
  have hmc : matchCont (stripWS wrapData7) =
      some ("0x08001234".data, "0x000000c8".data, codeL, gbL, "main.o".data) := by decide
  simp only [entryLoop, hc, hmc]
  rw [if_pos (by decide : (0 : Nat) < hexVal "0x000000c8".data)]
  have he : mkEntry "a_very_long_symbol_name".data "0x08001234".data "0x000000c8".data
      codeL gbL "main.o".data = wrapEntry7 := by decide
  rw [he]

/-- Claim C8: on a valid grouped-digit token — whose stripped form holds only
digits and apostrophe or comma separators, and is empty or holds a digit —
parse_iar_number returns the value of its digit string with separators and
whitespace removed; empty and whitespace-only tokens give 0. -/
theorem C8_number_decoder (t : List Char)
    (H1 : ∀ c ∈ stripWS t, c.isDigit = true ∨ c = apoC ∨ c = ',')
    (H2 : stripWS t = [] ∨ ∃ c ∈ stripWS t, c.isDigit = true) :
    parse_iar_number t = some ((digitsVal (t.filter Char.isDigit) : Nat) : Int) := by
  by_cases h0 : stripWS t = []
  · have hf : t.filter Char.isDigit = [] := by
      rw [← filter_isDigit_stripWS t, h0]
      rfl
    simp [parse_iar_number, if_pos h0, hf, digitsVal]
  · simp only [parse_iar_number, if_neg h0]
    rw [allowed_filter _ H1, ← filter_isDigit_stripWS t]
    apply pyInt_digits
    · rcases H2 with h | ⟨c, hc, hd⟩
      · exact absurd h h0
      · exact List.ne_nil_of_mem (List.mem_filter.mpr ⟨hc, hd⟩)
    · exact fun c hc => (List.mem_filter.mp hc).2

def tokC8 : List Char := " 1".data ++ [apoC] ++ "234 ".data

theorem C8_number_decoder_witness :
    parse_iar_number tokC8 = some ((digitsVal (tokC8.filter Char.isDigit) : Nat) : Int) ∧
      parse_iar_number "  ".data =
        some ((digitsVal ("  ".data.filter Char.isDigit) : Nat) : Int) :=
  ⟨C8_number_decoder tokC8 (by decide) (by decide),
    C8_number_decoder "  ".data (by decide) (by decide)⟩

def sumS1 : Line := "1".data ++ [apoC] ++ "234 bytes of readonly  code memory".data

def sumS2 : Line := "56 bytes of readonly  data memory".data

def sumS3 : Line := "789 bytes of readwrite data memory".data

def sumS1pre : Line := "9 bytes of readonly  code memory".data

def sumPerms : List (List Line) :=
  [[sumS1, sumS2, sumS3], [sumS1, sumS3, sumS2], [sumS2, sumS1, sumS3],
   [sumS2, sumS3, sumS1], [sumS3, sumS1, sumS2], [sumS3, sumS2, sumS1]]

/-- Claim C9: the summary extractor reads only the final twenty lines; the
three prose sentences among them yield 1234, 56 and 789 in any of the six
orders; a later match overwrites an earlier one; an absent sentence leaves
its field at 0. -/
theorem C9_summary_extractor :
    (∀ L1 L2 : List Line, L1.drop (L1.length - 20) = L2.drop (L2.length - 20) →
        summaryPhase L1 = summaryPhase L2) ∧
      (∀ p ∈ sumPerms, sumLoop p ⟨0, 0, 0⟩ = some ⟨1234, 56, 789⟩) ∧
      sumLoop [sumS1pre, sumS1, sumS2, sumS3] ⟨0, 0, 0⟩ = some ⟨1234, 56, 789⟩ ∧
      sumLoop [sumS1, sumS2] ⟨0, 0, 0⟩ = some ⟨1234, 56, 0⟩ := by
  refine ⟨?_, ?_, by decide, by decide⟩
  · intro L1 L2 h
    unfold summaryPhase
    rw [h]
  · intro p hp
    simp only [sumPerms, List.mem_cons, List.not_mem_nil, or_false] at hp
    rcases hp with rfl | rfl | rfl | rfl | rfl | rfl <;> decide

def base20 : List Line := List.replicate 19 "z".data ++ [sumS3]

theorem C9_summary_extractor_witness :
    summaryPhase ("pad1".data :: base20) = summaryPhase ("pad2".data :: base20) ∧
      sumLoop [sumS2, sumS3, sumS1] ⟨0, 0, 0⟩ = some ⟨1234, 56, 789⟩ :=
  ⟨C9_summary_extractor.1 _ _ (by decide), C9_summary_extractor.2.1 _ (by decide)⟩

/-- Claim C10 counterexample: a module-summary banner with no header in reach
skips the section, yet the parse can still abort — here on a malformed
numeric token in a trailing prose-totals sentence — so it does not return a
ReportModel on every such input. -/
theorem C10_counterexample :
    (locateSections exNoHdrBadSum).1 = some 0 ∧
      findHdr msHdrP exNoHdrBadSum 0 10 = none ∧
      parse_map_file exNoHdrBadSum = none := by decide

/-- Claim C10, amended: when a section banner is present but no header line
is found among it and the following nine lines, the whole section is skipped
without contributing an error: the module phase yields no modules and a zero
grand total (even if a Grand Total row exists in the body), the entry phase
yields no entries, and any returned ReportModel has those fields empty; the
parse itself may still abort for reasons outside the skipped section. -/
theorem C10_missing_header_section_skipped :
    (∀ (lines : List Line) (s : Nat),
        (locateSections lines).1 = some s → findHdr msHdrP lines s 10 = none →
        moduleSummaryPhase lines = some ([], ⟨0, 0, 0⟩) ∧
          ∀ r, parse_map_file lines = some r →
            r.modules = [] ∧ r.grand_total = ⟨0, 0, 0⟩) ∧
    (∀ (lines : List Line) (s : Nat),
        (locateSections lines).2 = some s → findHdr elHdrP lines s 10 = none →
        entryListPhase lines = [] ∧ ∀ r, parse_map_file lines = some r → r.entries = []) := by
  constructor
  · intro lines s hloc hhdr
    have hphase : moduleSummaryPhase lines = some ([], ⟨0, 0, 0⟩) := by
      simp only [moduleSummaryPhase, hloc, hhdr]
    refine ⟨hphase, ?_⟩
    intro r hr
    rcases parse_map_file_eq lines r hr with ⟨ms, gt, sm, hm, hs, rfl⟩
    rw [hphase] at hm
    simp only [Option.some.injEq, Prod.mk.injEq] at hm
    obtain ⟨hms, hgt⟩ := hm
    subst hms
    subst hgt
    exact ⟨rfl, rfl⟩
  · intro lines s hloc hhdr
    have hphase : entryListPhase lines = [] := by
      simp only [entryListPhase, hloc, hhdr]
    refine ⟨hphase, ?_⟩
    intro r hr
    rcases parse_map_file_eq lines r hr with ⟨ms, gt, sm, hm, hs, rfl⟩
    show sortEntries (entryListPhase lines) = []
    rw [hphase]
    rfl

def rNoHdr : ReportModel := ⟨[], [], [], ⟨0, 0, 0⟩, ⟨0, 0, 0⟩⟩

theorem C10_missing_header_section_skipped_witness :
    entryListPhase exNoHdrEl = [] ∧
      rNoHdr.modules = [] ∧ rNoHdr.grand_total = ⟨0, 0, 0⟩ :=
  ⟨(C10_missing_header_section_skipped.2 exNoHdrEl 0 (by decide) (by decide)).1,
    (C10_missing_header_section_skipped.1 exNoHdr 0 (by decide) (by decide)).2 rNoHdr
      (by decide)⟩

end MapAn
